import Mathlib

/-!
A shallow embedding of the LLM-response JSON extraction and result-cleaning
core of the `coffee` repository, covering:

- `CoffeeBeanTextAnalyzer.extract_first_json_object`,
  `CoffeeBeanTextAnalyzer.clean_results` and
  `CoffeeBeanTextAnalyzer._process_response_content`
  from `JZ_parser/text_llm_parser.py` (the functions of the same names in
  `llm_parser.py` and `JZ_parser/flavor_categorization.py` are character-for-
  character the same algorithms, up to the field list of `clean_results`).

Modelling conventions:
- Python values are the inductive `PyVal`.  Python `float` is modelled by `ℚ`
  (the only floats the cleaner ever creates come from parsing short decimal
  digit strings, where rational arithmetic agrees with the source's intent);
  machine-level IEEE behaviour is never relied on by any statement below.
- Python `dict`s are association lists looked up by first match; the cleaner
  only reads them via `dict.get`.
- Python strings are `String`/`List Char`; slicing and `len` are by
  characters, as in Python.  `str.split()` is modelled on the ASCII
  whitespace characters (space, tab, newline, carriage return, vertical tab,
  form feed); Python additionally splits on rare Unicode spaces, which no
  statement below depends on.
- `re.search(r'[\d.]+', s)` is modelled with ASCII digits.
- `str(value)` is exact on the cases the program distinguishes (strings,
  `None`, booleans, ints); the textual form of floats and containers is
  modelled abstractly, since no behaviour of the program depends on it.
-/

namespace Coffee

/-- Model of the Python values flowing through the cleaner: the JSON-derived
universe plus `None`. -/
inductive PyVal where
  | none : PyVal
  | bool : Bool → PyVal
  | int : Int → PyVal
  | float : ℚ → PyVal
  | str : String → PyVal
  | list : List PyVal → PyVal
  | dict : List (String × PyVal) → PyVal

/-- Python `d.get(k, default)` on an association-list dict: the stored value
when the key is present (even when that value is `None`), else the default. -/
def pyGet (kvs : List (String × PyVal)) (k : String) (d : PyVal) : PyVal :=
  (kvs.lookup k).getD d

/-- Python truthiness, `bool(v)`: `None`/`False`/zero/empty containers and the
empty string are falsy; everything else is truthy. -/
def pyBool : PyVal → Bool
  | .none => false
  | .bool b => b
  | .int n => n != 0
  | .float q => q != 0
  | .str s => s != ""
  | .list xs => !xs.isEmpty
  | .dict kvs => !kvs.isEmpty

/-- Python `str(v)`.  Exact on `str`, `None`, `bool` and `int` values (the
cases any statement below inspects); the textual form of floats and of
containers is modelled abstractly. -/
def pyStr : PyVal → String
  | .none => "None"
  | .bool true => "True"
  | .bool false => "False"
  | .int n => toString n
  | .float q => toString q
  | .str s => s
  | .list _ => "<list repr>"
  | .dict _ => "<dict repr>"

/-- Python `isinstance(v, int)`: true for ints and booleans (`bool` is a
subclass of `int`). -/
def pyIsInt : PyVal → Bool
  | .int _ => true
  | .bool _ => true
  | _ => false

/-- The integer a Python int-or-bool stands for (`True` is `1`). -/
def pyToInt : PyVal → Int
  | .int n => n
  | .bool true => 1
  | .bool false => 0
  | _ => 0

/-- `isinstance(v, dict)`. -/
def isDictV : PyVal → Bool
  | .dict _ => true
  | _ => false

/-- A character matched by the regex class `[\d.]` (ASCII model). -/
def isDigitDot (c : Char) : Bool :=
  c.isDigit || c == '.'

/-- Base-10 value of a list of ASCII digits (empty list is `0`). -/
def natOfDigits (cs : List Char) : Nat :=
  cs.foldl (fun a c => a * 10 + (c.toNat - '0'.toNat)) 0

/-- Python `float(run)` for a non-empty run of digits and dots: succeeds
exactly when the run has at most one dot and at least one digit, giving the
decimal value (modelled in `ℚ`); otherwise (`"."`, `"1.2.3"`, ...) it raises
`ValueError`, modelled as `Option.none`. -/
def pyFloatOfDigitDotRun (s : String) : Option ℚ :=
  let cs := s.data
  if 1 < cs.count '.' then Option.none
  else if cs.all (fun c => !c.isDigit) then Option.none
  else
    let intPart := cs.takeWhile (fun c => c != '.')
    let fracPart := (cs.dropWhile (fun c => c != '.')).drop 1
    Option.some ((natOfDigits intPart : ℚ) + (natOfDigits fracPart : ℚ) / 10 ^ fracPart.length)

/-- `re.search(r'[\d.]+', s)`: the first (leftmost, maximal) contiguous run of
digit-and-dot characters in `s`, or `Option.none` when `s` has none. -/
def firstDigitDotRun (s : String) : Option String :=
  match s.data.dropWhile (fun c => !isDigitDot c) with
  | [] => Option.none
  | c :: rest => Option.some (String.mk ((c :: rest).takeWhile isDigitDot))

/-- The `price_per_kg` coercion of `clean_results`: strings are searched for a
digit-and-dot run and parsed with `float`, failures giving `None`; ints,
floats and booleans (`isinstance(price, (int, float))` accepts booleans) are
kept; `None` stays `None`; anything else becomes `None`. -/
def cleanPrice : PyVal → PyVal
  | .str s =>
      match firstDigitDotRun s with
      | Option.some run =>
          match pyFloatOfDigitDotRun run with
          | Option.some q => .float q
          | Option.none => .none
      | Option.none => .none
  | .int n => .int n
  | .float q => .float q
  | .bool b => .bool b
  | .none => .none
  | .list _ => .none
  | .dict _ => .none

/-- One cleaned coffee-bean record: every declared field present. -/
structure CleanedBean where
  code : String
  name : String
  country : String
  flavor_profile : String
  price_per_kg : PyVal
  price_per_pkg : PyVal
  origin : String
  plot : String
  estate : String
  grade : String
  humidity : String
  altitude : String
  density : String
  processing_method : String
  harvest_season : String
  variety : String
  sold_out : Bool

/-- The per-item body of `clean_results`'s inner loop: field-by-field
coercion of one bean dict. -/
def cleanBean (b : List (String × PyVal)) : CleanedBean where
  code := pyStr (pyGet b "code" (.str ""))
  name := pyStr (pyGet b "name" (.str ""))
  country := pyStr (pyGet b "country" (.str ""))
  flavor_profile := pyStr (pyGet b "flavor_profile" (.str ""))
  price_per_kg := cleanPrice (pyGet b "price_per_kg" .none)
  price_per_pkg := pyGet b "price_per_pkg" .none
  origin := pyStr (pyGet b "origin" (.str ""))
  plot := pyStr (pyGet b "plot" (.str ""))
  estate := pyStr (pyGet b "estate" (.str ""))
  grade := pyStr (pyGet b "grade" (.str ""))
  humidity := pyStr (pyGet b "humidity" (.str ""))
  altitude := pyStr (pyGet b "altitude" (.str ""))
  density := pyStr (pyGet b "density" (.str ""))
  processing_method := pyStr (pyGet b "processing_method" (.str ""))
  harvest_season := pyStr (pyGet b "harvest_season" (.str ""))
  variety := pyStr (pyGet b "variety" (.str ""))
  sold_out := pyBool (pyGet b "sold_out" (.bool false))

/-- One cleaned page: the page value finally stored (the original int-like
value when valid, else the fallback index) and the cleaned beans. -/
structure CleanedPage where
  page : PyVal
  coffee_beans : List CleanedBean

/-- The `page` value is kept as-is exactly when `isinstance(page, int)` (which
admits booleans) and it is positive. -/
def validPageNum (v : PyVal) : Prop :=
  pyIsInt v = true ∧ 0 < pyToInt v

instance (v : PyVal) : Decidable (validPageNum v) := by
  unfold validPageNum; infer_instance

/-- The raw `coffee_beans` list of a page dict: `page_data.get("coffee_beans",
[])`, replaced by `[]` when not a list. -/
def beansOf (kvs : List (String × PyVal)) : List PyVal :=
  match pyGet kvs "coffee_beans" (.list []) with
  | .list bs => bs
  | _ => []

/-- The per-bean filter of the inner loop: non-dict beans are skipped, dict
beans are cleaned. -/
def beanFilter : PyVal → Option CleanedBean
  | .dict bkvs => Option.some (cleanBean bkvs)
  | _ => Option.none

/-- The `cleaned_beans` list the inner loop accumulates for one page. -/
def cleanedBeansOf (kvs : List (String × PyVal)) : List CleanedBean :=
  (beansOf kvs).filterMap beanFilter

/-- The validated page number for the entry at enumeration index `i`
(0-based): the raw value when it is a positive int, else the 1-based
enumeration index `i + 1`. -/
def pageNumOf (i : Nat) (kvs : List (String × PyVal)) : PyVal :=
  if validPageNum (pyGet kvs "page" (.int 0)) then pyGet kvs "page" (.int 0)
  else .int (i + 1)

/-- The body of `clean_results`'s outer loop for the entry at enumeration
index `i` (0-based, as produced by Python's `enumerate`): non-dict entries are
skipped; an invalid `page` is replaced by `i + 1`; non-dict beans are skipped;
a page with no cleaned beans is not emitted. -/
def cleanPageEntry (i : Nat) (e : PyVal) : Option CleanedPage :=
  match e with
  | .dict kvs =>
      if (cleanedBeansOf kvs).isEmpty then Option.none
      else Option.some ⟨pageNumOf i kvs, cleanedBeansOf kvs⟩
  | _ => Option.none

/-- The enumerated outer loop of `clean_results`, starting at index `i`. -/
def cleanPagesFrom (i : Nat) : List PyVal → List CleanedPage
  | [] => []
  | e :: rest =>
      match cleanPageEntry i e with
      | Option.some pg => pg :: cleanPagesFrom (i + 1) rest
      | Option.none => cleanPagesFrom (i + 1) rest

/-- `CoffeeBeanTextAnalyzer.clean_results`: a non-list input yields `[]`;
a list is processed entry by entry with 0-based enumeration indices. -/
def clean_results : PyVal → List CleanedPage
  | .list entries => cleanPagesFrom 0 entries
  | _ => []

/-- A character Python's `str.split()` splits on (ASCII model; see the header
note). -/
def pyIsSpace (c : Char) : Bool :=
  c == ' ' || c == '\t' || c == '\n' || c == '\r' || c == '\x0b' || c == '\x0c'

/-- `s.replace('\n', '').replace('\r', '')`: delete every newline and
carriage-return character. -/
def removeNL (cs : List Char) : List Char :=
  cs.filter (fun c => !(c == '\n' || c == '\r'))

/-- `s.split()`: the maximal runs of non-whitespace characters, in order,
empties discarded.  A whitespace head is skipped; a non-whitespace head
starts a fresh word when followed by whitespace (or nothing) and otherwise
joins the run that begins at the next character. -/
def pyWords : List Char → List (List Char)
  | [] => []
  | [c] => if pyIsSpace c then [] else [[c]]
  | c :: d :: cs =>
      if pyIsSpace c then pyWords (d :: cs)
      else if pyIsSpace d then [c] :: pyWords (d :: cs)
      else
        match pyWords (d :: cs) with
        | [] => [[c]]
        | w :: ws => (c :: w) :: ws

/-- `' '.join(words)`. -/
def joinSp : List (List Char) → List Char
  | [] => []
  | [w] => w
  | w :: ws => w ++ ' ' :: joinSp ws

/-- `' '.join(s.split())`: collapse every maximal whitespace run to a single
space and strip leading/trailing whitespace. -/
def collapseWS (cs : List Char) : List Char :=
  joinSp (pyWords cs)

/-- The cleanup both return paths of `extract_first_json_object` apply to the
selected span: delete `'\n'`/`'\r'` first, then collapse the remaining
whitespace. -/
def normalizeWS (cs : List Char) : List Char :=
  collapseWS (removeNL cs)

/-- Python `text.find(c)` (with `Option.none` for `-1`). -/
def pyFind (c : Char) : List Char → Option Nat
  | [] => Option.none
  | x :: xs => if x = c then Option.some 0 else (pyFind c xs).map (· + 1)

/-- The start-position/end-character selection at the head of
`extract_first_json_object`: the earlier of the first `'{'` and the first
`'['` wins and fixes the closing character. -/
def startSel (cs : List Char) : Option (Nat × Char) :=
  match pyFind '{' cs, pyFind '[' cs with
  | Option.none, Option.none => Option.none
  | Option.none, Option.some k => Option.some (k, ']')
  | Option.some b, Option.none => Option.some (b, '}')
  | Option.some b, Option.some k =>
      if b < k then Option.some (b, '}') else Option.some (k, ']')

/-- The forward scan of `extract_first_json_object`, read off the source
loop: state is `(bracket_count, in_string, escape_next)` plus the running
relative index `i`; the result is the relative index at which
`bracket_count` first returns to `0`, or `Option.none` when the text is
exhausted first.  Only the selected bracket kind (`openCh`/`closeCh`) affects
the counter. -/
def scanLoop (openCh closeCh : Char) :
    List Char → Int → Bool → Bool → Nat → Option Nat
  | [], _, _, _, _ => Option.none
  | c :: rest, cnt, inStr, esc, i =>
      if esc then scanLoop openCh closeCh rest cnt inStr false (i + 1)
      else if c = '\\' then scanLoop openCh closeCh rest cnt inStr true (i + 1)
      else if c = '"' then scanLoop openCh closeCh rest cnt (!inStr) false (i + 1)
      else if inStr then scanLoop openCh closeCh rest cnt inStr false (i + 1)
      else if c = openCh then scanLoop openCh closeCh rest (cnt + 1) inStr false (i + 1)
      else if c = closeCh then
        if cnt - 1 = 0 then Option.some i
        else scanLoop openCh closeCh rest (cnt - 1) inStr false (i + 1)
      else scanLoop openCh closeCh rest cnt inStr false (i + 1)

/-- The opening character matching the selected closing character. -/
def openOf (endCh : Char) : Char :=
  if endCh = ']' then '[' else '{'

/-- The part of `extract_first_json_object` after the start selection: scan
forward for the matching closer; on success return the normalized span
`text[start_pos : i + 1]`; if the scan exhausts the text, return the
normalized bounded span
`text[start_pos : min(start_pos + 10000, len(text))]`. -/
def extractTail (cs : List Char) (startPos : Nat) (endCh : Char) : List Char :=
  match scanLoop (openOf endCh) endCh (cs.drop startPos) 0 false false 0 with
  | Option.some i => normalizeWS ((cs.drop startPos).take (i + 1))
  | Option.none =>
      let endPos := min (startPos + 10000) cs.length
      normalizeWS ((cs.take endPos).drop startPos)

/-- The character-list level of `extract_first_json_object`: with no bracket
at all return the empty list, else hand over to the scan. -/
def extractCore (cs : List Char) : List Char :=
  match startSel cs with
  | Option.none => []
  | Option.some (startPos, endCh) => extractTail cs startPos endCh

/-- `CoffeeBeanTextAnalyzer.extract_first_json_object` (identical in
`llm_parser.py` and `flavor_categorization.py`), as a `String` function. -/
def extract_first_json_object (text : String) : String :=
  String.mk (extractCore text.data)

/-- `T` is a span the scanner closes exactly at its last character: scanning
`T` alone from the initial state, the depth counter first returns to `0` at
relative index `T.length - 1`.  This is the spec's notion of a balanced JSON
span "with correctly tracked string/escape state". -/
def BalancedScan (openCh closeCh : Char) (T : List Char) : Prop :=
  scanLoop openCh closeCh T 0 false false 0 = Option.some (T.length - 1)

instance (o c : Char) (T : List Char) : Decidable (BalancedScan o c T) := by
  unfold BalancedScan; infer_instance

/-- The diagnostics `_process_response_content` prints on its two failure
branches, modelled as data. -/
inductive Diagnostic where
  | noJson (preview : String)
  | parseError (rawLength : Nat) (preview : String)

/-- `CoffeeBeanTextAnalyzer._process_response_content`, with `json.loads`
passed in as a fallible parameter (`Option.none` models
`json.JSONDecodeError`): extract, parse, clean; both failure branches catch
locally and return `[]` with a diagnostic built from the raw content (its
character length and its first 500 characters, `content[:500]`). -/
def processResponseContent (parse : String → Option PyVal) (content : String) :
    List CleanedPage × Option Diagnostic :=
  if extract_first_json_object content = "" then
    ([], Option.some (Diagnostic.noJson (String.mk (content.data.take 500))))
  else
    match parse (extract_first_json_object content) with
    | Option.some v => (clean_results v, Option.none)
    | Option.none =>
        ([], Option.some (Diagnostic.parseError content.data.length
          (String.mk (content.data.take 500))))

/-! ### Lemmas about `pyFind` and `startSel` -/

theorem pyFind_cons_self (c : Char) (xs : List Char) :
    pyFind c (c :: xs) = Option.some 0 := by
  simp [pyFind]

theorem pyFind_cons_of_ne {x c : Char} (xs : List Char) (h : x ≠ c) :
    pyFind c (x :: xs) = (pyFind c xs).map (· + 1) := by
  simp [pyFind, h]

theorem pyFind_eq_none_iff (c : Char) (cs : List Char) :
    pyFind c cs = Option.none ↔ c ∉ cs := by
  induction cs with
  | nil => simp [pyFind]
  | cons x xs ih =>
      by_cases h : x = c
      · subst h; simp [pyFind]
      · rw [pyFind_cons_of_ne _ h]
        simp only [Option.map_eq_none', List.mem_cons, not_or, ih]
        constructor
        · exact fun hn => ⟨fun he => h he.symm, hn⟩
        · exact fun hn => hn.2

theorem pyFind_append_of_not_mem (c : Char) (xs ys : List Char) (h : c ∉ xs) :
    pyFind c (xs ++ ys) = (pyFind c ys).map (· + xs.length) := by
  induction xs with
  | nil => cases hy : pyFind c ys <;> simp [hy]
  | cons x xs ih =>
      have hx : x ≠ c := fun he => h (he ▸ List.mem_cons_self x xs)
      have hxs : c ∉ xs := fun hm => h (List.mem_cons_of_mem x hm)
      rw [List.cons_append, pyFind_cons_of_ne _ hx, ih hxs]
      cases pyFind c ys with
      | none => simp
      | some k => simp; omega

theorem pyFind_drop {c : Char} {cs : List Char} {k : Nat}
    (h : pyFind c cs = Option.some k) : ∃ tl, cs.drop k = c :: tl := by
  induction cs generalizing k with
  | nil => simp [pyFind] at h
  | cons x xs ih =>
      by_cases hx : x = c
      · subst hx
        rw [pyFind_cons_self] at h
        obtain rfl : k = 0 := by simpa using h.symm
        exact ⟨xs, rfl⟩
      · rw [pyFind_cons_of_ne _ hx] at h
        obtain ⟨k', hk', rfl⟩ := Option.map_eq_some'.mp h
        simpa using ih hk'

/-- When the head of `startSel`'s result is known, the corresponding bracket
really was found there. -/
theorem startSel_cases {cs : List Char} {startPos : Nat} {endCh : Char}
    (h : startSel cs = Option.some (startPos, endCh)) :
    (endCh = '}' ∧ pyFind '{' cs = Option.some startPos) ∨
    (endCh = ']' ∧ pyFind '[' cs = Option.some startPos) := by
  unfold startSel at h
  rcases hb : pyFind '{' cs with _ | b <;> rcases hk : pyFind '[' cs with _ | k <;>
    rw [hb, hk] at h <;> simp at h
  · exact Or.inr ⟨h.2.symm, by rw [h.1]⟩
  · exact Or.inl ⟨h.2.symm, by rw [h.1]⟩
  · by_cases hlt : b < k
    · rw [if_pos hlt] at h
      simp at h
      exact Or.inl ⟨h.2.symm, by rw [h.1]⟩
    · rw [if_neg hlt] at h
      simp at h
      exact Or.inr ⟨h.2.symm, by rw [h.1]⟩

/-- With no bracket in the leading prose, the first `'{'` of
`pre ++ '{' :: tl` is at index `pre.length` and the selection fixes `'}'`. -/
theorem startSel_brace (pre tl : List Char) (hp : ∀ c ∈ pre, c ≠ '{' ∧ c ≠ '[') :
    startSel (pre ++ '{' :: tl) = Option.some (pre.length, '}') := by
  have hbrace : pyFind '{' (pre ++ '{' :: tl) = Option.some pre.length := by
    rw [pyFind_append_of_not_mem _ _ _ (fun hm => (hp _ hm).1 rfl), pyFind_cons_self]
    simp
  have hbrack : pyFind '[' (pre ++ '{' :: tl) =
      (pyFind '[' tl).map (· + (pre.length + 1)) := by
    rw [pyFind_append_of_not_mem _ _ _ (fun hm => (hp _ hm).2 rfl),
      pyFind_cons_of_ne _ (by decide)]
    cases pyFind '[' tl with
    | none => simp
    | some k => simp; omega
  unfold startSel
  rw [hbrace, hbrack]
  cases pyFind '[' tl with
  | none => simp
  | some k =>
      simp only [Option.map_some']
      rw [if_pos (by omega)]

/-- With no bracket in the leading prose, the first `'['` of
`pre ++ '[' :: tl` is at index `pre.length` and the selection fixes `']'`. -/
theorem startSel_bracket (pre tl : List Char) (hp : ∀ c ∈ pre, c ≠ '{' ∧ c ≠ '[') :
    startSel (pre ++ '[' :: tl) = Option.some (pre.length, ']') := by
  have hbrack : pyFind '[' (pre ++ '[' :: tl) = Option.some pre.length := by
    rw [pyFind_append_of_not_mem _ _ _ (fun hm => (hp _ hm).2 rfl), pyFind_cons_self]
    simp
  have hbrace : pyFind '{' (pre ++ '[' :: tl) =
      (pyFind '{' tl).map (· + (pre.length + 1)) := by
    rw [pyFind_append_of_not_mem _ _ _ (fun hm => (hp _ hm).1 rfl),
      pyFind_cons_of_ne _ (by decide)]
    cases pyFind '{' tl with
    | none => simp
    | some k => simp; omega
  unfold startSel
  rw [hbrace, hbrack]
  cases pyFind '{' tl with
  | none => simp
  | some k =>
      simp only [Option.map_some']
      rw [if_neg (by omega)]

/-! ### Lemmas about the scan -/

/-- A scan that stops does not look past its stopping point: appending a
suffix changes nothing. -/
theorem scanLoop_append {o e : Char} {T sfx : List Char} {cnt : Int}
    {inStr esc : Bool} {i k : Nat}
    (h : scanLoop o e T cnt inStr esc i = Option.some k) :
    scanLoop o e (T ++ sfx) cnt inStr esc i = Option.some k := by
  induction T generalizing cnt inStr esc i with
  | nil => simp [scanLoop] at h
  | cons c rest ih =>
      rw [List.cons_append]
      rw [scanLoop] at h ⊢
      split_ifs at h ⊢ <;> first | exact ih h | exact h

theorem extractCore_eq_tail {cs : List Char} {startPos : Nat} {endCh : Char}
    (hsel : startSel cs = Option.some (startPos, endCh)) :
    extractCore cs = extractTail cs startPos endCh := by
  unfold extractCore
  rw [hsel]

theorem extractTail_of_scan_some {cs : List Char} {startPos : Nat}
    {endCh : Char} {i : Nat}
    (hscan : scanLoop (openOf endCh) endCh (cs.drop startPos) 0 false false 0 =
      Option.some i) :
    extractTail cs startPos endCh = normalizeWS ((cs.drop startPos).take (i + 1)) := by
  unfold extractTail
  rw [hscan]

theorem extractTail_of_scan_none {cs : List Char} {startPos : Nat} {endCh : Char}
    (hscan : scanLoop (openOf endCh) endCh (cs.drop startPos) 0 false false 0 =
      Option.none) :
    extractTail cs startPos endCh =
      normalizeWS ((cs.take (min (startPos + 10000) cs.length)).drop startPos) := by
  unfold extractTail
  rw [hscan]

/-- Core of the extraction identity: leading prose without brackets and an
arbitrary suffix do not disturb the extraction of a balanced span. -/
theorem extractCore_balanced (pre T sfx : List Char)
    (hp : ∀ c ∈ pre, c ≠ '{' ∧ c ≠ '[')
    (hT : (T.head? = Option.some '{' ∧ BalancedScan '{' '}' T) ∨
          (T.head? = Option.some '[' ∧ BalancedScan '[' ']' T)) :
    extractCore (pre ++ T ++ sfx) = normalizeWS T := by
  obtain ⟨hh, hbal⟩ | ⟨hh, hbal⟩ := hT
  · obtain ⟨tl, rfl⟩ : ∃ tl, T = '{' :: tl := by
      cases T with
      | nil => simp at hh
      | cons a tl => exact ⟨tl, by rw [List.head?_cons] at hh; rw [Option.some.inj hh]⟩
    have hsel : startSel (pre ++ '{' :: tl ++ sfx) = Option.some (pre.length, '}') := by
      rw [List.append_assoc, List.cons_append]
      exact startSel_brace pre (tl ++ sfx) hp
    have hdrop : (pre ++ '{' :: tl ++ sfx).drop pre.length = ('{' :: tl) ++ sfx := by
      rw [List.append_assoc]
      exact List.drop_left pre _
    rw [extractCore_eq_tail hsel]
    have hscan : scanLoop (openOf '}') '}'
        ((pre ++ '{' :: tl ++ sfx).drop pre.length) 0 false false 0 =
        Option.some (('{' :: tl).length - 1) := by
      rw [hdrop]
      exact scanLoop_append hbal
    rw [extractTail_of_scan_some hscan, hdrop]
    have hlen : ('{' :: tl).length - 1 + 1 = ('{' :: tl).length := by simp
    rw [hlen, List.take_left]
  · obtain ⟨tl, rfl⟩ : ∃ tl, T = '[' :: tl := by
      cases T with
      | nil => simp at hh
      | cons a tl => exact ⟨tl, by rw [List.head?_cons] at hh; rw [Option.some.inj hh]⟩
    have hsel : startSel (pre ++ '[' :: tl ++ sfx) = Option.some (pre.length, ']') := by
      rw [List.append_assoc, List.cons_append]
      exact startSel_bracket pre (tl ++ sfx) hp
    have hdrop : (pre ++ '[' :: tl ++ sfx).drop pre.length = ('[' :: tl) ++ sfx := by
      rw [List.append_assoc]
      exact List.drop_left pre _
    rw [extractCore_eq_tail hsel]
    have hscan : scanLoop (openOf ']') ']'
        ((pre ++ '[' :: tl ++ sfx).drop pre.length) 0 false false 0 =
        Option.some (('[' :: tl).length - 1) := by
      rw [hdrop]
      exact scanLoop_append hbal
    rw [extractTail_of_scan_some hscan, hdrop]
    have hlen : ('[' :: tl).length - 1 + 1 = ('[' :: tl).length := by simp
    rw [hlen, List.take_left]

/-! ### Claim C7 -/

/-- C7: for all text `pre ++ T ++ sfx` where `pre` contains no `'{'`/`'['`
and `T` is a balanced span (string/escape state tracked by the scanner) and
`sfx` is arbitrary, extraction returns `T` whitespace-collapse normalized;
in particular, for such `T` with no leading prose, extraction of `T` itself
returns `T` normalized. -/
theorem extract_balanced_span_identity (pre T sfx : List Char)
    (hp : ∀ c ∈ pre, c ≠ '{' ∧ c ≠ '[')
    (hT : (T.head? = Option.some '{' ∧ BalancedScan '{' '}' T) ∨
          (T.head? = Option.some '[' ∧ BalancedScan '[' ']' T)) :
    extract_first_json_object (String.mk (pre ++ T ++ sfx)) = String.mk (normalizeWS T) ∧
    extract_first_json_object (String.mk T) = String.mk (normalizeWS T) := by
  constructor
  · show String.mk (extractCore (pre ++ T ++ sfx)) = _
    rw [extractCore_balanced pre T sfx hp hT]
  · have h := extractCore_balanced [] T [] (by simp) hT
    simp only [List.nil_append, List.append_nil] at h
    show String.mk (extractCore T) = _
    rw [h]

theorem extract_balanced_span_identity_witness :
    extract_first_json_object
      (String.mk ("Here is data: ".data ++ "[\x7b\"code\":\"A1\"\x7d]".data ++ " done".data)) =
      String.mk (normalizeWS "[\x7b\"code\":\"A1\"\x7d]".data) ∧
    extract_first_json_object (String.mk "[\x7b\"code\":\"A1\"\x7d]".data) =
      String.mk (normalizeWS "[\x7b\"code\":\"A1\"\x7d]".data) :=
  extract_balanced_span_identity "Here is data: ".data "[\x7b\"code\":\"A1\"\x7d]".data " done".data
    (by decide) (Or.inr ⟨by decide, by decide⟩)

/-! ### Claim C8 -/

/-- C8: extraction of `""` gives `""`; extraction of bracket-free text gives
`""`; and when the scan exhausts the text with the depth counter never
returning to zero, extraction returns the normalized bounded span
`text[start_pos : min(start_pos + 10000, len(text))]`, a span of at most
10000 raw characters, rather than failing. -/
theorem extract_boundary_and_fallback :
    extract_first_json_object "" = "" ∧
    (∀ text : String, (∀ c ∈ text.data, c ≠ '{' ∧ c ≠ '[') →
      extract_first_json_object text = "") ∧
    (∀ text : String, ∀ startPos : Nat, ∀ endCh : Char,
      startSel text.data = Option.some (startPos, endCh) →
      scanLoop (openOf endCh) endCh (text.data.drop startPos) 0 false false 0 =
        Option.none →
      extract_first_json_object text =
        String.mk (normalizeWS
          ((text.data.take (min (startPos + 10000) text.data.length)).drop startPos)) ∧
      ((text.data.take (min (startPos + 10000) text.data.length)).drop startPos).length ≤
        10000) := by
  refine ⟨by decide, ?_, ?_⟩
  · intro text h
    have hb : pyFind '{' text.data = Option.none :=
      (pyFind_eq_none_iff _ _).mpr (fun hm => (h _ hm).1 rfl)
    have hk : pyFind '[' text.data = Option.none :=
      (pyFind_eq_none_iff _ _).mpr (fun hm => (h _ hm).2 rfl)
    have hsel : startSel text.data = Option.none := by
      unfold startSel
      rw [hb, hk]
    show String.mk (extractCore text.data) = ""
    unfold extractCore
    rw [hsel]
  · intro text startPos endCh hsel hscan
    constructor
    · show String.mk (extractCore text.data) = _
      rw [extractCore_eq_tail hsel, extractTail_of_scan_none hscan]
    · rw [List.length_drop, List.length_take]
      omega

theorem extract_boundary_and_fallback_witness :
    extract_first_json_object "no brackets here" = "" ∧
    (extract_first_json_object "\x7bunterminated" =
      String.mk (normalizeWS
        (("\x7bunterminated".data.take (min (0 + 10000) "\x7bunterminated".data.length)).drop 0)) ∧
     (("\x7bunterminated".data.take (min (0 + 10000) "\x7bunterminated".data.length)).drop 0).length ≤
       10000) :=
  ⟨extract_boundary_and_fallback.2.1 "no brackets here" (by decide),
   extract_boundary_and_fallback.2.2 "\x7bunterminated" 0 '}' (by decide) (by decide)⟩

/-! ### Claim C3 -/

/-- C3 (amended): on both return paths, `extract_first_json_object` returns
the located span with every `'\n'` and `'\r'` character deleted first and
every maximal run of the remaining whitespace then collapsed to a single
space (leading/trailing whitespace stripped); a whitespace run consisting
only of newlines therefore becomes the empty string, not a space. -/
theorem extract_normalization_removes_newlines_first :
    (∀ text : String, ∀ startPos i : Nat, ∀ endCh : Char,
      startSel text.data = Option.some (startPos, endCh) →
      scanLoop (openOf endCh) endCh (text.data.drop startPos) 0 false false 0 =
        Option.some i →
      extract_first_json_object text =
        String.mk (collapseWS (removeNL ((text.data.drop startPos).take (i + 1))))) ∧
    (∀ text : String, ∀ startPos : Nat, ∀ endCh : Char,
      startSel text.data = Option.some (startPos, endCh) →
      scanLoop (openOf endCh) endCh (text.data.drop startPos) 0 false false 0 =
        Option.none →
      extract_first_json_object text =
        String.mk (collapseWS (removeNL
          ((text.data.take (min (startPos + 10000) text.data.length)).drop startPos)))) := by
  constructor
  · intro text startPos i endCh hsel hscan
    show String.mk (extractCore text.data) = _
    rw [extractCore_eq_tail hsel, extractTail_of_scan_some hscan]
    rfl
  · intro text startPos endCh hsel hscan
    show String.mk (extractCore text.data) = _
    rw [extractCore_eq_tail hsel, extractTail_of_scan_none hscan]
    rfl

theorem extract_normalization_removes_newlines_first_witness :
    extract_first_json_object "\x7b\"a\":\n1\x7d" =
      String.mk (collapseWS (removeNL (("\x7b\"a\":\n1\x7d".data.drop 0).take (7 + 1)))) :=
  extract_normalization_removes_newlines_first.1 "\x7b\"a\":\n1\x7d" 0 7 '}'
    (by decide) (by decide)

/-- C3 counterexample: on `"\x7b\"a\":\n1\x7d"` the located span is the whole
text; replacing its maximal whitespace runs (a lone newline) by single spaces
would give `"\x7b\"a\": 1\x7d"`, but the code deletes the newline first and
returns `"\x7b\"a\":1\x7d"`. -/
theorem newline_run_counterexample :
    extract_first_json_object "\x7b\"a\":\n1\x7d" = "\x7b\"a\":1\x7d" ∧
    String.mk (collapseWS "\x7b\"a\":\n1\x7d".data) = "\x7b\"a\": 1\x7d" ∧
    extract_first_json_object "\x7b\"a\":\n1\x7d" ≠
      String.mk (collapseWS "\x7b\"a\":\n1\x7d".data) := by
  refine ⟨by decide, by decide, by decide⟩

/-! ### Shape of the normalized output (for claim C10) -/

theorem pyWords_good (cs : List Char) :
    ∀ w ∈ pyWords cs, w ≠ [] ∧ ∀ x ∈ w, pyIsSpace x = false := by
  induction cs using pyWords.induct with
  | case1 => simp [pyWords]
  | case2 c hc => simp [pyWords, hc]
  | case3 c hc =>
      simp only [pyWords, if_neg hc]
      intro w hw
      simp only [List.mem_singleton] at hw
      subst hw
      refine ⟨by simp, ?_⟩
      intro x hx
      simp only [List.mem_singleton] at hx
      subst hx
      simpa using hc
  | case4 c d cs hc ih =>
      simpa [pyWords, hc] using ih
  | case5 c d cs hc hd ih =>
      simp only [pyWords, if_neg hc, if_pos hd]
      intro w hw
      rcases List.mem_cons.mp hw with rfl | hw
      · refine ⟨by simp, ?_⟩
        intro x hx
        simp only [List.mem_singleton] at hx
        subst hx
        simpa using hc
      · exact ih w hw
  | case6 c d cs hc hd hnil ih =>
      simp only [pyWords, if_neg hc, if_neg hd, hnil]
      intro w hw
      simp only [List.mem_singleton] at hw
      subst hw
      refine ⟨by simp, ?_⟩
      intro x hx
      simp only [List.mem_singleton] at hx
      subst hx
      simpa using hc
  | case7 c d cs hc hd w ws hws ih =>
      simp only [pyWords, if_neg hc, if_neg hd, hws]
      intro w' hw'
      rcases List.mem_cons.mp hw' with rfl | hw'
      · have hgood := ih w (by rw [hws]; exact List.mem_cons_self _ _)
        refine ⟨by simp, ?_⟩
        intro x hx
        rcases List.mem_cons.mp hx with rfl | hx
        · simpa using hc
        · exact hgood.2 x hx
      · exact ih w' (by rw [hws]; exact List.mem_cons_of_mem _ hw')

theorem pyWords_head (c : Char) (cs : List Char) (hc : pyIsSpace c = false) :
    ∃ w ws, pyWords (c :: cs) = (c :: w) :: ws := by
  induction cs generalizing c with
  | nil => exact ⟨[], [], by simp [pyWords, hc]⟩
  | cons d cs ih =>
      by_cases hd : pyIsSpace d = true
      · exact ⟨[], pyWords (d :: cs), by simp [pyWords, hc, hd]⟩
      · obtain ⟨w, ws, hws⟩ := ih d (by simpa using hd)
        exact ⟨d :: w, ws, by simp [pyWords, hc, hd, hws]⟩

theorem joinSp_ne_nil {ws : List (List Char)} (hne : ws ≠ [])
    (hw : ∀ w ∈ ws, w ≠ []) : joinSp ws ≠ [] := by
  match ws with
  | [] => exact absurd rfl hne
  | [w] => simpa [joinSp] using hw w (by simp)
  | w :: w' :: ws =>
      simp only [joinSp]
      intro hcontra
      rcases List.append_eq_nil.mp hcontra with ⟨_, h2⟩
      simp at h2

theorem joinSp_head (c : Char) (w : List Char) (ws : List (List Char)) :
    (joinSp ((c :: w) :: ws)).head? = Option.some c := by
  match ws with
  | [] => simp [joinSp]
  | w' :: ws' => simp [joinSp]

theorem joinSp_mem {x : Char} {ws : List (List Char)} (hx : x ∈ joinSp ws) :
    x = ' ' ∨ ∃ w ∈ ws, x ∈ w := by
  induction ws with
  | nil => simp [joinSp] at hx
  | cons w ws ih =>
      cases ws with
      | nil =>
          simp only [joinSp] at hx
          exact Or.inr ⟨w, by simp, hx⟩
      | cons w' ws' =>
          simp only [joinSp] at hx
          rcases List.mem_append.mp hx with hw | hsp
          · exact Or.inr ⟨w, by simp, hw⟩
          · rcases List.mem_cons.mp hsp with rfl | hrest
            · exact Or.inl rfl
            · rcases ih hrest with h | ⟨u, hu, hxu⟩
              · exact Or.inl h
              · exact Or.inr ⟨u, List.mem_cons_of_mem _ hu, hxu⟩

theorem chain_nodbl_of_nospace {w : List Char}
    (hw : ∀ x ∈ w, pyIsSpace x = false) :
    List.Chain' (fun a b => ¬(a = ' ' ∧ b = ' ')) w := by
  induction w with
  | nil => simp
  | cons a w ih =>
      rw [List.chain'_cons']
      constructor
      · intro b _ hab
        have ha := hw a (by simp)
        rw [hab.1] at ha
        exact absurd ha (by decide)
      · exact ih (fun x hx => hw x (List.mem_cons_of_mem _ hx))

theorem joinSp_chain {ws : List (List Char)}
    (h : ∀ w ∈ ws, w ≠ [] ∧ ∀ x ∈ w, pyIsSpace x = false) :
    List.Chain' (fun a b => ¬(a = ' ' ∧ b = ' ')) (joinSp ws) := by
  induction ws with
  | nil => simp [joinSp]
  | cons w ws ih =>
      cases ws with
      | nil =>
          show List.Chain' _ (joinSp [w])
          simp only [joinSp]
          exact chain_nodbl_of_nospace (h w (by simp)).2
      | cons w' ws' =>
          simp only [joinSp]
          rw [List.chain'_append]
          refine ⟨chain_nodbl_of_nospace (h w (by simp)).2, ?_, ?_⟩
          · rw [List.chain'_cons']
            constructor
            · intro b hb hab
              obtain ⟨c, w'', rfl⟩ : ∃ c w'', w' = c :: w'' := by
                rcases h w' (by simp) with ⟨hne, _⟩
                cases w' with
                | nil => exact absurd rfl hne
                | cons c w'' => exact ⟨c, w'', rfl⟩
              rw [joinSp_head] at hb
              simp only [Option.mem_def, Option.some.injEq] at hb
              have hcgood := (h (c :: w'') (by simp)).2 c (by simp)
              rw [hb, hab.2] at hcgood
              exact absurd hcgood (by decide)
            · exact ih (fun u hu => h u (List.mem_cons_of_mem _ hu))
          · intro x hx y hy hxy
            have hxw : x ∈ w := List.mem_of_mem_getLast? hx
            have hxs := (h w (by simp)).2 x hxw
            rw [hxy.1] at hxs
            exact absurd hxs (by decide)

theorem joinSp_getLast {ws : List (List Char)}
    (h : ∀ w ∈ ws, w ≠ [] ∧ ∀ x ∈ w, pyIsSpace x = false) :
    ∀ x, (joinSp ws).getLast? = Option.some x → pyIsSpace x = false := by
  induction ws with
  | nil => intro x hx; simp [joinSp] at hx
  | cons w ws ih =>
      cases ws with
      | nil =>
          intro x hx
          show pyIsSpace x = false
          refine (h w (by simp)).2 x (List.mem_of_mem_getLast? ?_)
          simpa only [joinSp] using hx
      | cons w' ws' =>
          intro x hx
          simp only [joinSp] at hx
          rw [List.getLast?_append] at hx
          have hjne : joinSp (w' :: ws') ≠ [] :=
            joinSp_ne_nil (by simp)
              (fun u hu => (h u (List.mem_cons_of_mem _ hu)).1)
          obtain ⟨y, l', hyl⟩ : ∃ y l', joinSp (w' :: ws') = y :: l' := by
            cases hj : joinSp (w' :: ws') with
            | nil => exact absurd hj hjne
            | cons y l' => exact ⟨y, l', rfl⟩
          rw [hyl, List.getLast?_cons_cons] at hx
          cases hl : (y :: l').getLast? with
          | none =>
              rw [List.getLast?_eq_none_iff] at hl
              exact absurd hl (by simp)
          | some z =>
              rw [hl] at hx
              have hz : z = x := by simpa [Option.or_some] using hx
              subst hz
              exact ih (fun u hu => h u (List.mem_cons_of_mem _ hu)) z
                (by rw [hyl]; exact hl)

/-- The head of the whole normalization of a span beginning with a
non-whitespace character is that character. -/
theorem normalizeWS_head (b : Char) (rest : List Char)
    (hb : pyIsSpace b = false) :
    (normalizeWS (b :: rest)).head? = Option.some b := by
  have h1 : b ≠ '\n' := by rintro rfl; exact absurd hb (by decide)
  have h2 : b ≠ '\r' := by rintro rfl; exact absurd hb (by decide)
  have hbn : removeNL (b :: rest) = b :: removeNL rest := by
    unfold removeNL
    rw [List.filter_cons_of_pos]
    simp [h1, h2]
  show (joinSp (pyWords (removeNL (b :: rest)))).head? = Option.some b
  rw [hbn]
  obtain ⟨w, ws, hws⟩ := pyWords_head b (removeNL rest) hb
  rw [hws]
  exact joinSp_head b w ws

/-! ### Claim C10 -/

/-- C10: for every input, the extractor's output is either empty or begins
with `'{'` or `'['`; it contains no newline, carriage-return or tab; no two
consecutive spaces; and no trailing whitespace (and none leading, since the
head is a bracket). -/
theorem extract_output_invariant (text : String) :
    extract_first_json_object text = "" ∨
    ((∃ c, (extract_first_json_object text).data.head? = Option.some c ∧
        (c = '{' ∨ c = '[')) ∧
     (∀ c ∈ (extract_first_json_object text).data, c ≠ '\n' ∧ c ≠ '\r' ∧ c ≠ '\t') ∧
     List.Chain' (fun a b => ¬(a = ' ' ∧ b = ' '))
       (extract_first_json_object text).data ∧
     (∀ c, (extract_first_json_object text).data.getLast? = Option.some c →
        pyIsSpace c = false)) := by
  rcases hsel : startSel text.data with _ | ⟨startPos, endCh⟩
  · left
    show String.mk (extractCore text.data) = ""
    unfold extractCore
    rw [hsel]
  · right
    have hb : ∃ b, (b = '{' ∨ b = '[') ∧ ∃ tl, text.data.drop startPos = b :: tl := by
      rcases startSel_cases hsel with ⟨_, hf⟩ | ⟨_, hf⟩
      · exact ⟨'{', Or.inl rfl, pyFind_drop hf⟩
      · exact ⟨'[', Or.inr rfl, pyFind_drop hf⟩
    obtain ⟨b, hbor, tl, htl⟩ := hb
    have hspan : ∃ sp, extractCore text.data = normalizeWS (b :: sp) := by
      rcases hscan : scanLoop (openOf endCh) endCh (text.data.drop startPos)
          0 false false 0 with _ | i
      · rw [extractCore_eq_tail hsel, extractTail_of_scan_none hscan]
        have hrw : (text.data.take (min (startPos + 10000) text.data.length)).drop
            startPos = (text.data.drop startPos).take
              (min (startPos + 10000) text.data.length - startPos) :=
          List.drop_take _ _ _
        have hlt : startPos < text.data.length := by
          have hlen := congrArg List.length htl
          rw [List.length_drop, List.length_cons] at hlen
          omega
        obtain ⟨m, hm⟩ : ∃ m, min (startPos + 10000) text.data.length - startPos =
            m + 1 := ⟨min (startPos + 10000) text.data.length - startPos - 1, by omega⟩
        rw [hrw, hm, htl, List.take_succ_cons]
        exact ⟨tl.take m, rfl⟩
      · rw [extractCore_eq_tail hsel, extractTail_of_scan_some hscan, htl,
          List.take_succ_cons]
        exact ⟨tl.take i, rfl⟩
    obtain ⟨sp, hsp⟩ := hspan
    have hbs : pyIsSpace b = false := by rcases hbor with rfl | rfl <;> decide
    have hdata : (extract_first_json_object text).data = normalizeWS (b :: sp) := by
      show (String.mk (extractCore text.data)).data = _
      rw [hsp]
    have hwords := pyWords_good (removeNL (b :: sp))
    refine ⟨⟨b, ?_, hbor⟩, ?_, ?_, ?_⟩
    · rw [hdata]
      exact normalizeWS_head b sp hbs
    · rw [hdata]
      intro c hc
      have hc' : c ∈ joinSp (pyWords (removeNL (b :: sp))) := hc
      rcases joinSp_mem hc' with rfl | ⟨w, hw, hcw⟩
      · exact ⟨by decide, by decide, by decide⟩
      · have hns := (hwords w hw).2 c hcw
        refine ⟨?_, ?_, ?_⟩ <;> rintro rfl <;> exact absurd hns (by decide)
    · rw [hdata]
      exact joinSp_chain hwords
    · rw [hdata]
      intro c hc
      exact joinSp_getLast hwords c hc

/-! ### Claim C1 -/

/-- C1 counterexample: the code coaches `sold_out` through Python `bool()`,
so the non-empty strings `"false"`, `"0"`, `"no"`, `"off"` all come out
`true`, where the claim predicts `false`. -/
theorem sold_out_false_string_counterexample :
    (cleanBean [("sold_out", PyVal.str "false")]).sold_out = true ∧
    (cleanBean [("sold_out", PyVal.str "0")]).sold_out = true ∧
    (cleanBean [("sold_out", PyVal.str "no")]).sold_out = true ∧
    (cleanBean [("sold_out", PyVal.str "off")]).sold_out = true :=
  ⟨rfl, rfl, rfl, rfl⟩

/-- C1 (amended): `sold_out` is coerced by Python truthiness (`bool(value)`),
with `False` as the default for a missing field: the empty string, zero and
`None` become `false`; every non-empty string (including
`"false"`/`"0"`/`"no"`/`"off"`), and every non-zero number, becomes
`true`. -/
theorem sold_out_truthiness :
    (∀ kvs : List (String × PyVal),
      (kvs.lookup "sold_out" = Option.none → (cleanBean kvs).sold_out = false) ∧
      (∀ v, kvs.lookup "sold_out" = Option.some v →
        (cleanBean kvs).sold_out = pyBool v)) ∧
    pyBool PyVal.none = false ∧
    (∀ b, pyBool (PyVal.bool b) = b) ∧
    pyBool (PyVal.str "") = false ∧
    (∀ s : String, s ≠ "" → pyBool (PyVal.str s) = true) ∧
    pyBool (PyVal.int 0) = false ∧
    (∀ n : Int, n ≠ 0 → pyBool (PyVal.int n) = true) ∧
    pyBool (PyVal.float 0) = false ∧
    (∀ q : ℚ, q ≠ 0 → pyBool (PyVal.float q) = true) := by
  refine ⟨fun kvs => ⟨fun h => ?_, fun v h => ?_⟩, rfl, fun b => rfl, by decide,
    fun s hs => ?_, by decide, fun n hn => ?_, by decide, fun q hq => ?_⟩
  · show pyBool (pyGet kvs "sold_out" (.bool false)) = false
    unfold pyGet
    rw [h]
    rfl
  · show pyBool (pyGet kvs "sold_out" (.bool false)) = pyBool v
    unfold pyGet
    rw [h]
    rfl
  · show (s != "") = true
    simpa using hs
  · show (n != 0) = true
    simpa using hn
  · show (q != 0) = true
    simpa using hq

theorem sold_out_truthiness_witness :
    (cleanBean [("sold_out", PyVal.str "false")]).sold_out =
      pyBool (PyVal.str "false") ∧
    (cleanBean ([] : List (String × PyVal))).sold_out = false ∧
    pyBool (PyVal.str "nonempty") = true :=
  ⟨(sold_out_truthiness.1 [("sold_out", PyVal.str "false")]).2 _ rfl,
   (sold_out_truthiness.1 []).1 rfl,
   sold_out_truthiness.2.2.2.2.1 "nonempty" (by decide)⟩

/-! ### Claim C4 -/

/-- The declared string fields of a cleaned bean, paired with their
projections. -/
def stringFields : List (String × (CleanedBean → String)) :=
  [("code", CleanedBean.code), ("name", CleanedBean.name),
   ("country", CleanedBean.country), ("flavor_profile", CleanedBean.flavor_profile),
   ("origin", CleanedBean.origin), ("plot", CleanedBean.plot),
   ("estate", CleanedBean.estate), ("grade", CleanedBean.grade),
   ("humidity", CleanedBean.humidity), ("altitude", CleanedBean.altitude),
   ("density", CleanedBean.density),
   ("processing_method", CleanedBean.processing_method),
   ("harvest_season", CleanedBean.harvest_season),
   ("variety", CleanedBean.variety)]

/-- C4 counterexample: a present `None` value is emitted as the string
`"None"` (Python `str(None)`), not collapsed to `''`; likewise the string
`"None"` stays `"None"`. -/
theorem none_value_becomes_None_string :
    (cleanBean [("name", PyVal.none)]).name = "None" ∧
    (cleanBean [("name", PyVal.str "None")]).name = "None" ∧
    ("None" : String) ≠ "" :=
  ⟨rfl, rfl, by decide⟩

/-- C4 (amended): every declared string field is emitted as `str(value)` when
present and `''` when absent; the empty string stays `''`, but a `None` value
is emitted as the string `"None"` and the string `"None"` stays `"None"` —
neither collapses to `''`. -/
theorem string_fields_coercion :
    ∀ fg ∈ stringFields, ∀ kvs : List (String × PyVal),
      (kvs.lookup fg.1 = Option.none → fg.2 (cleanBean kvs) = "") ∧
      (∀ v, kvs.lookup fg.1 = Option.some v → fg.2 (cleanBean kvs) = pyStr v) ∧
      pyStr (PyVal.str "") = "" ∧
      pyStr PyVal.none = "None" ∧
      pyStr (PyVal.str "None") = "None" := by
  intro fg hfg kvs
  fin_cases hfg <;>
    exact ⟨fun h => by show pyStr (pyGet kvs _ (.str "")) = ""; unfold pyGet; rw [h]; rfl,
      fun v h => by show pyStr (pyGet kvs _ (.str "")) = pyStr v; unfold pyGet; rw [h]; rfl,
      rfl, rfl, rfl⟩

theorem string_fields_coercion_witness :
    (cleanBean [("code", PyVal.str "A1")]).code = pyStr (PyVal.str "A1") ∧
    (cleanBean ([] : List (String × PyVal))).name = "" :=
  ⟨(string_fields_coercion ("code", CleanedBean.code) (List.mem_cons_self _ _)
      [("code", PyVal.str "A1")]).2.1 _ rfl,
   (string_fields_coercion ("name", CleanedBean.name)
      (List.mem_cons_of_mem _ (List.mem_cons_self _ _)) []).1 rfl⟩

/-! ### Claim C2 -/

theorem cleanPageEntry_dict (i : Nat) (kvs : List (String × PyVal)) :
    cleanPageEntry i (PyVal.dict kvs) =
      if (cleanedBeansOf kvs).isEmpty = true then Option.none
      else Option.some ⟨pageNumOf i kvs, cleanedBeansOf kvs⟩ := rfl

theorem beanFilter_eq_none_iff (b : PyVal) :
    beanFilter b = Option.none ↔ isDictV b = false := by
  cases b <;> simp [beanFilter, isDictV]

theorem length_filterMap_beanFilter (bs : List PyVal) :
    (bs.filterMap beanFilter).length = (bs.filter (fun b => isDictV b)).length := by
  induction bs with
  | nil => rfl
  | cons b bs ih =>
      cases b <;> simp [beanFilter, isDictV, List.filterMap_cons, ih]

/-- C2 counterexample: a page whose only item is an empty mapping (so `name`
and `code` are both empty in the cleaned record) is NOT dropped: it yields one
page holding one record with `name = ""` and `code = ""`. -/
theorem empty_name_kept_counterexample :
    (clean_results (PyVal.list [PyVal.dict [("page", PyVal.int 1),
      ("coffee_beans", PyVal.list [PyVal.dict []])]])).length = 1 ∧
    (clean_results (PyVal.list [PyVal.dict [("page", PyVal.int 1),
      ("coffee_beans", PyVal.list [PyVal.dict []])]])).map
        (fun p => p.coffee_beans.map (fun b => (b.name, b.code))) = [[("", "")]] :=
  ⟨rfl, rfl⟩

/-- C2 (amended): the normalizer never inspects `name`/`code` — only item
entries that are not mappings are dropped.  A page entry is dropped exactly
when its `coffee_beans` list contains no mapping at all (in particular when it
is missing, not a list, or empty); otherwise every mapping item — including
ones with empty `name`/`code` — contributes a cleaned record. -/
theorem only_nonmapping_items_dropped (i : Nat) (kvs : List (String × PyVal)) :
    (cleanPageEntry i (PyVal.dict kvs) = Option.none ↔
      ∀ b ∈ beansOf kvs, isDictV b = false) ∧
    (∀ pg, cleanPageEntry i (PyVal.dict kvs) = Option.some pg →
      pg.coffee_beans = cleanedBeansOf kvs ∧
      pg.coffee_beans.length = ((beansOf kvs).filter (fun b => isDictV b)).length) := by
  constructor
  · constructor
    · intro hnone b hb
      rw [cleanPageEntry_dict] at hnone
      by_cases hemp : (cleanedBeansOf kvs).isEmpty = true
      · unfold cleanedBeansOf at hemp
        rw [List.isEmpty_iff, List.filterMap_eq_nil_iff] at hemp
        exact (beanFilter_eq_none_iff b).mp (hemp b hb)
      · rw [if_neg hemp] at hnone
        exact absurd hnone (by simp)
    · intro hall
      have hemp : (cleanedBeansOf kvs).isEmpty = true := by
        unfold cleanedBeansOf
        rw [List.isEmpty_iff, List.filterMap_eq_nil_iff]
        intro b hb
        exact (beanFilter_eq_none_iff b).mpr (hall b hb)
      rw [cleanPageEntry_dict, if_pos hemp]
  · intro pg hpg
    rw [cleanPageEntry_dict] at hpg
    by_cases hemp : (cleanedBeansOf kvs).isEmpty = true
    · rw [if_pos hemp] at hpg
      exact absurd hpg (by simp)
    · rw [if_neg hemp] at hpg
      have heq := Option.some.inj hpg
      constructor
      · rw [← heq]
      · rw [← heq]
        show (cleanedBeansOf kvs).length = _
        exact length_filterMap_beanFilter (beansOf kvs)

theorem only_nonmapping_items_dropped_witness :
    cleanPageEntry 0 (PyVal.dict [("coffee_beans", PyVal.list [PyVal.str "x"])]) =
      Option.none ∧
    (⟨PyVal.int 1, [cleanBean []]⟩ : CleanedPage).coffee_beans =
      cleanedBeansOf [("coffee_beans", PyVal.list [PyVal.dict []])] :=
  ⟨(only_nonmapping_items_dropped 0 [("coffee_beans", PyVal.list [PyVal.str "x"])]).1.mpr
      (by decide),
   ((only_nonmapping_items_dropped 0 [("coffee_beans", PyVal.list [PyVal.dict []])]).2
      ⟨PyVal.int 1, [cleanBean []]⟩ rfl).1⟩

/-! ### Claim C5 -/

/-- C5: `price_per_kg` keeps numeric values unchanged; a string is searched
for its first contiguous digit-and-dot run, which is parsed as a float, with
`null` when there is no run or the parse fails; any other type becomes
`null`.  (Python booleans are ints, so they count as numeric and are kept.)
Includes the spec's scenario values `"¥84/KG" → 84.0` and `"售罄" → null`. -/
theorem cleanPrice_str_eq (s : String) :
    cleanPrice (PyVal.str s) =
      match firstDigitDotRun s with
      | Option.some run =>
          match pyFloatOfDigitDotRun run with
          | Option.some q => PyVal.float q
          | Option.none => PyVal.none
      | Option.none => PyVal.none := rfl

theorem price_per_kg_coercion :
    (∀ kvs : List (String × PyVal),
      (cleanBean kvs).price_per_kg = cleanPrice (pyGet kvs "price_per_kg" PyVal.none)) ∧
    (∀ n : Int, cleanPrice (PyVal.int n) = PyVal.int n) ∧
    (∀ q : ℚ, cleanPrice (PyVal.float q) = PyVal.float q) ∧
    (∀ s : String, firstDigitDotRun s = Option.none →
      cleanPrice (PyVal.str s) = PyVal.none) ∧
    (∀ s r : String, firstDigitDotRun s = Option.some r →
      pyFloatOfDigitDotRun r = Option.none → cleanPrice (PyVal.str s) = PyVal.none) ∧
    (∀ s r : String, ∀ q : ℚ, firstDigitDotRun s = Option.some r →
      pyFloatOfDigitDotRun r = Option.some q →
      cleanPrice (PyVal.str s) = PyVal.float q) ∧
    (∀ xs, cleanPrice (PyVal.list xs) = PyVal.none) ∧
    (∀ kvs, cleanPrice (PyVal.dict kvs) = PyVal.none) ∧
    cleanPrice PyVal.none = PyVal.none ∧
    cleanPrice (PyVal.str "¥84/KG") = PyVal.float 84 ∧
    cleanPrice (PyVal.str "售罄") = PyVal.none := by
  refine ⟨fun kvs => rfl, fun n => rfl, fun q => rfl, ?_, ?_, ?_,
    fun xs => rfl, fun kvs => rfl, rfl, ?_, rfl⟩
  · intro s h
    simp only [cleanPrice_str_eq, h]
  · intro s r h1 h2
    simp only [cleanPrice_str_eq, h1, h2]
  · intro s r q h1 h2
    simp only [cleanPrice_str_eq, h1, h2]
  · show PyVal.float ((84 : ℚ) + (0 : ℚ) / 10 ^ (0 : Nat)) = PyVal.float 84
    norm_num

theorem price_per_kg_coercion_witness :
    cleanPrice (PyVal.str "abc") = PyVal.none ∧
    cleanPrice (PyVal.str "a1.2.3b") = PyVal.none ∧
    cleanPrice (PyVal.str "x12.5y") = PyVal.float (25 / 2) := by
  refine ⟨price_per_kg_coercion.2.2.2.1 "abc" rfl,
    price_per_kg_coercion.2.2.2.2.1 "a1.2.3b" "1.2.3" rfl rfl,
    ?_⟩
  have h := price_per_kg_coercion.2.2.2.2.2.1 "x12.5y" "12.5"
    ((12 : ℚ) + (5 : ℚ) / 10 ^ (1 : Nat)) rfl rfl
  rw [h]
  norm_num

/-! ### Claim C6 -/

/-- C6: non-mapping entries are skipped entirely, yet still consume an
enumeration index; a mapping entry whose `page` value is missing, not an
int, or not positive is emitted (when it has any cleaned beans) with the
1-based raw enumeration index `i + 1` as its page, and a valid page value is
kept.  Includes the spec's Scenario 2 (`page: 0` at position 0 emits page 1)
and a variant where a skipped non-mapping entry still consumes index 0. -/
theorem page_fallback_enumeration_index :
    (∀ i : Nat, ∀ e : PyVal, isDictV e = false → cleanPageEntry i e = Option.none) ∧
    (∀ i : Nat, ∀ kvs : List (String × PyVal), ∀ pg : CleanedPage,
      ¬ validPageNum (pyGet kvs "page" (PyVal.int 0)) →
      cleanPageEntry i (PyVal.dict kvs) = Option.some pg →
      pg.page = PyVal.int (i + 1)) ∧
    (∀ i : Nat, ∀ kvs : List (String × PyVal), ∀ pg : CleanedPage,
      validPageNum (pyGet kvs "page" (PyVal.int 0)) →
      cleanPageEntry i (PyVal.dict kvs) = Option.some pg →
      pg.page = pyGet kvs "page" (PyVal.int 0)) ∧
    clean_results (PyVal.list [PyVal.dict [("page", PyVal.int 0), ("coffee_beans",
        PyVal.list [PyVal.dict [("code", PyVal.str "X"), ("name", PyVal.str "Foo")]])]]) =
      [⟨PyVal.int 1, [cleanBean [("code", PyVal.str "X"), ("name", PyVal.str "Foo")]]⟩] ∧
    clean_results (PyVal.list [PyVal.str "junk", PyVal.dict [("page", PyVal.int 0),
        ("coffee_beans", PyVal.list [PyVal.dict []])]]) =
      [⟨PyVal.int 2, [cleanBean []]⟩] := by
  refine ⟨?_, ?_, ?_, rfl, rfl⟩
  · intro i e h
    cases e <;> first | rfl | simp [isDictV] at h
  · intro i kvs pg hv hpg
    rw [cleanPageEntry_dict] at hpg
    by_cases hemp : (cleanedBeansOf kvs).isEmpty = true
    · rw [if_pos hemp] at hpg
      exact absurd hpg (by simp)
    · rw [if_neg hemp] at hpg
      rw [← Option.some.inj hpg]
      show pageNumOf i kvs = PyVal.int (i + 1)
      unfold pageNumOf
      rw [if_neg hv]
  · intro i kvs pg hv hpg
    rw [cleanPageEntry_dict] at hpg
    by_cases hemp : (cleanedBeansOf kvs).isEmpty = true
    · rw [if_pos hemp] at hpg
      exact absurd hpg (by simp)
    · rw [if_neg hemp] at hpg
      rw [← Option.some.inj hpg]
      show pageNumOf i kvs = pyGet kvs "page" (PyVal.int 0)
      unfold pageNumOf
      rw [if_pos hv]

theorem page_fallback_enumeration_index_witness :
    cleanPageEntry 5 (PyVal.str "x") = Option.none ∧
    (⟨PyVal.int 1, [cleanBean []]⟩ : CleanedPage).page = PyVal.int (0 + 1) ∧
    (⟨PyVal.int 7, [cleanBean []]⟩ : CleanedPage).page =
      pyGet [("page", PyVal.int 7), ("coffee_beans", PyVal.list [PyVal.dict []])]
        "page" (PyVal.int 0) :=
  ⟨page_fallback_enumeration_index.1 5 (PyVal.str "x") rfl,
   page_fallback_enumeration_index.2.1 0
     [("page", PyVal.int 0), ("coffee_beans", PyVal.list [PyVal.dict []])]
     ⟨PyVal.int 1, [cleanBean []]⟩ (by decide) rfl,
   page_fallback_enumeration_index.2.2.1 0
     [("page", PyVal.int 7), ("coffee_beans", PyVal.list [PyVal.dict []])]
     ⟨PyVal.int 7, [cleanBean []]⟩ (by decide) rfl⟩

/-! ### Claim C9 -/

/-- C9: `_process_response_content` always returns a list — both failure
modes are handled inside the function (`json.loads` failure is modelled by
the parse parameter returning `Option.none`, the re-raised
`json.JSONDecodeError` being caught by the enclosing handler): no JSON-like
text yields `[]` with a preview diagnostic; a failed parse yields `[]` with
the raw content length and the first 500 characters; a successful parse
yields the cleaned result. -/
theorem process_response_content_total (parse : String → Option PyVal)
    (content : String) :
    (extract_first_json_object content = "" →
      processResponseContent parse content =
        ([], Option.some (Diagnostic.noJson (String.mk (content.data.take 500))))) ∧
    (∀ js, extract_first_json_object content = js → js ≠ "" →
      parse js = Option.none →
      processResponseContent parse content =
        ([], Option.some (Diagnostic.parseError content.data.length
          (String.mk (content.data.take 500))))) ∧
    (∀ js v, extract_first_json_object content = js → js ≠ "" →
      parse js = Option.some v →
      processResponseContent parse content = (clean_results v, Option.none)) := by
  refine ⟨fun h => ?_, fun js hjs hne hp => ?_, fun js v hjs hne hp => ?_⟩
  · unfold processResponseContent
    rw [if_pos h]
  · unfold processResponseContent
    rw [hjs, if_neg hne, hp]
  · unfold processResponseContent
    rw [hjs, if_neg hne, hp]

theorem process_response_content_total_witness :
    processResponseContent (fun _ => Option.none) "no json here" =
      ([], Option.some (Diagnostic.noJson (String.mk ("no json here".data.take 500)))) ∧
    processResponseContent (fun _ => Option.none) "\x7b\"a\": 1\x7d" =
      ([], Option.some (Diagnostic.parseError "\x7b\"a\": 1\x7d".data.length
        (String.mk ("\x7b\"a\": 1\x7d".data.take 500)))) :=
  ⟨(process_response_content_total (fun _ => Option.none) "no json here").1 (by decide),
   (process_response_content_total (fun _ => Option.none) "\x7b\"a\": 1\x7d").2.1
     "\x7b\"a\": 1\x7d" (by decide) (by decide) rfl⟩

end Coffee
